import Mathlib

/-!
Shallow embedding of the linkification core of `src/linkify.py`
(repository White-On/linkify_obsidian), together with theorems settling
the frozen claims about it.

Strings are modelled as `String` (a structure around `List Char`, matching
Python's sequence-of-code-points view of `str`).  Python's `re` behaviour
for the specific patterns built by the code is embedded directly as
deterministic backtracking matchers.  Fallible code (Python exceptions)
is modelled with `Option`.
-/

namespace Linkify

/-! ### Normalization utility (`remove_accents`, `simplified_string`) -/

/--
Per-character NFKD decomposition, modelling Python's
`unicodedata.normalize("NFKD", s)`.  ASCII code points have no
decomposition in Unicode, so they map to themselves; a table covers the
accented characters exercised here, and remaining characters are kept
undecomposed (any such character is removed by the subsequent ASCII
filter in `remove_accents`, so the theorems below do not depend on the
table's completeness).
-/
def nfkdChar (c : Char) : List Char :=
  if c.toNat < 128 then [c]
  else if c = 'é' then ['e', '́']
  else if c = 'è' then ['e', '̀']
  else if c = 'É' then ['E', '́']
  else if c = 'û' then ['u', '̂']
  else if c = 'ç' then ['c', '̧']
  else [c]

/--
`remove_accents` from `src/linkify.py`: NFKD-normalize, then
`encode("ASCII", "ignore")` — i.e. drop every non-ASCII code point.
The Python function returns ASCII `bytes`, identified here with the list
of ASCII characters (the `.decode("utf-8")` performed by the caller is
the identity on ASCII).
-/
def remove_accents (s : String) : List Char :=
  (s.data.flatMap nfkdChar).filter (fun c => decide (c.toNat < 128))

/-- The uppercase/lowercase ASCII pairs, used to model Python's
`str.casefold`, which coincides with ASCII lowercasing on ASCII input
(and `remove_accents` output is always ASCII). -/
def lowerPairs : List (Char × Char) :=
  [('A', 'a'), ('B', 'b'), ('C', 'c'), ('D', 'd'), ('E', 'e'), ('F', 'f'),
   ('G', 'g'), ('H', 'h'), ('I', 'i'), ('J', 'j'), ('K', 'k'), ('L', 'l'),
   ('M', 'm'), ('N', 'n'), ('O', 'o'), ('P', 'p'), ('Q', 'q'), ('R', 'r'),
   ('S', 's'), ('T', 't'), ('U', 'u'), ('V', 'v'), ('W', 'w'), ('X', 'x'),
   ('Y', 'y'), ('Z', 'z')]

/-- ASCII lowercasing of one character (identity off `A`–`Z`). -/
def asciiLower (c : Char) : Char :=
  ((lowerPairs.find? (fun p => p.1 == c)).map (fun p => p.2)).getD c

/-- The separator replacement done by `simplified_string`:
spaces and hyphens become underscores. -/
def sepToUnderscore (c : Char) : Char :=
  if c == ' ' || c == '-' then '_' else c

/--
`simplified_string` from `src/linkify.py`:
`remove_accents(s).decode("utf-8").casefold().replace(" ", "_").replace("-", "_")`.
-/
def simplified_string (s : String) : String :=
  String.mk (((remove_accents s).map asciiLower).map sepToUnderscore)

/-- The uppercase ASCII letters, for stating "contains no uppercase letter". -/
def upperLetters : List Char := "ABCDEFGHIJKLMNOPQRSTUVWXYZ".data

/-! ### Title classifier (`separate_acronyms_and_classic_titles`) -/

/-- Python `simpler_title.split("_")`: split on every underscore, keeping
empty pieces (`"a__b".split("_") == ["a", "", "b"]`, `"".split("_") == [""]`). -/
def splitOnUnderscore : List Char → List (List Char)
  | [] => [[]]
  | c :: rest =>
    let r := splitOnUnderscore rest
    if c == '_' then [] :: r
    else
      match r with
      | [] => [[c]]
      | w :: ws => (c :: w) :: ws

/--
The acronym candidate of a title:
`"".join([word[0].upper() for word in simplified_string(title).split("_")])`.
Python's `word[0]` raises `IndexError` on an empty word; this is modelled
by `Option` (`none` = the exception).
-/
def potentialAcronym (title : String) : Option (List Char) :=
  ((splitOnUnderscore (simplified_string title).data).mapM
      (fun (w : List Char) => w.head?)).map (fun cs => cs.map Char.toUpper)

/-- One step of the classifier loop: thread the acronym association list
(insertion-ordered, modelling the Python `dict`) and the classic-title list. -/
def separateStep (acc : Option (List (List Char × String) × List String))
    (title : String) : Option (List (List Char × String) × List String) :=
  match acc with
  | none => none
  | some (acrs, classics) =>
    let classics' := classics ++ [title]
    match potentialAcronym title with
    | none => none
    | some a =>
      if a.length > 1 && !(acrs.any (fun p => p.1 == a)) then
        some (acrs ++ [(a, title)], classics')
      else
        some (acrs, classics')

/--
`separate_acronyms_and_classic_titles` from `src/linkify.py`.
Returns the acronym map (acronym → originating title, first writer wins)
and the classic-title list; `none` models the `IndexError` raised by
`word[0]` when a normalized title contains an empty word.
-/
def separate_acronyms_and_classic_titles (titles : List String) :
    Option (List (List Char × String) × List String) :=
  titles.foldl separateStep (some ([], []))

/-! ### Segmenter (`split_text_for_linkification`)

The Python code splits with
`re.split(r'(```.*?``` |(?<!`)\$\$.*?\$\$ |(?<!`)\$.*?\$ |^\|.*\|$)', text,
flags=re.VERBOSE | re.MULTILINE | re.DOTALL)` (spaces added here for
readability).  The scan below reproduces that engine's behaviour for this
pattern: leftmost match, alternatives tried in order, lazy `.*?` for code
fences and math, greedy `.*` for the table alternative; under `DOTALL`
every `.` also matches newlines, and under `MULTILINE` `^`/`$` anchor at
line boundaries. -/

def backtickChar : Char := '`'

def startsWithChars : List Char → List Char → Bool
  | [], _ => true
  | _ :: _, [] => false
  | p :: ps, c :: cs => p == c && startsWithChars ps cs

/-- Index of the earliest occurrence of `pat` in `cs` (lazy `.*?` search). -/
def findSubIdx (pat : List Char) : List Char → Option Nat
  | [] => if startsWithChars pat [] then some 0 else none
  | c :: rest =>
    if startsWithChars pat (c :: rest) then some 0
    else (findSubIdx pat rest).map (· + 1)

/-- Largest index `j` in `cs` holding `'|'` at a line end (`$` under
`MULTILINE`: end of text or just before a newline) — the greedy `.*`
backtracking target of `^\|.*\|$` under `DOTALL`. -/
def tableEndAux (cs : List Char) (idx : Nat) (best : Option Nat) : Option Nat :=
  match cs with
  | [] => best
  | c :: rest =>
    let best' :=
      if c == '|' && (rest.isEmpty || rest.head? == some '\n') then some idx else best
    tableEndAux rest (idx + 1) best'

/-- Length of the alternation's match starting exactly at the current
position (`prev` = character just before it, for `(?<!`)` and `^`). -/
def segMatchAt (prev : Option Char) (cs : List Char) : Option Nat :=
  -- ```...``` (lazy, DOTALL)
  (if startsWithChars [backtickChar, backtickChar, backtickChar] cs then
      (findSubIdx [backtickChar, backtickChar, backtickChar] (cs.drop 3)).map
        (fun j => 3 + j + 3)
    else none)
  <|>
  -- (?<!`)$$...$$ (lazy, DOTALL)
  (if prev != some backtickChar && startsWithChars ['$', '$'] cs then
      (findSubIdx ['$', '$'] (cs.drop 2)).map (fun j => 2 + j + 2)
    else none)
  <|>
  -- (?<!`)$...$ (lazy, DOTALL)
  (if prev != some backtickChar && startsWithChars ['$'] cs then
      (findSubIdx ['$'] (cs.drop 1)).map (fun j => 1 + j + 1)
    else none)
  <|>
  -- ^\|.*\|$ (greedy .*, DOTALL + MULTILINE)
  (if (prev.isNone || prev == some '\n') && startsWithChars ['|'] cs then
      match tableEndAux cs 0 none with
      | some j => if 1 ≤ j then some (j + 1) else none
      | none => none
    else none)

/-- Leftmost match of the alternation: returns `(gap, match, rest)`. -/
def findFirst : Nat → Option Char → List Char → Option (List Char × List Char × List Char)
  | 0, _, _ => none
  | f + 1, prev, cs =>
    match segMatchAt prev cs with
    | some len => some ([], cs.take len, cs.drop len)
    | none =>
      match cs with
      | [] => none
      | c :: rest =>
        (findFirst f (some c) rest).map
          (fun gmr => (c :: gmr.1, gmr.2.1, gmr.2.2))

/-- The pieces produced by `re.split` with one capture group: gaps and
matches interleaved, starting and ending with a (possibly empty) gap. -/
def segPieces : Nat → Option Char → List Char → List (List Char)
  | 0, _, cs => [cs]
  | fuel + 1, prev, cs =>
    match findFirst (cs.length + 1) prev cs with
    | none => [cs]
    | some (g, m, r) =>
      let prev' : Option Char :=
        match m.getLast? with
        | some c => some c
        | none => prev
      g :: m :: segPieces fuel prev' r

/--
`split_text_for_linkification` from `src/linkify.py`: split the text on the
protected-region alternation, then tag each section linkable unless it
starts with a code fence, `$`, or `|`.
-/
def split_text_for_linkification (text : String) : List (String × Bool) :=
  (segPieces (text.data.length + 1) none text.data).map
    (fun p => (String.mk p,
      !(startsWithChars "```".data p || startsWithChars "$".data p ||
        startsWithChars "|".data p)))

/-! ### Linker engine (`linkify_text`)

For each classic title `T` the code builds the pattern
`(\b|\[\[)` + `re.escape(T)` + `s?(\]\])?s?(?![\w])` and applies
`re.sub(pattern, replacement, text, flags=re.IGNORECASE)`.  For each
acronym the same pattern shape is used, but `re.IGNORECASE` is passed as
`re.sub`'s fourth positional argument — the `count` —, so the acronym
pass matches case-sensitively and performs at most `int(re.IGNORECASE) = 2`
replacements per acronym.  The matchers below reproduce the engine's
behaviour for this pattern family: leftmost match, ordered alternation
with backtracking, greedy optional elements, trailing negative lookahead. -/

/-- Python `\w` (Unicode word character) for the strings handled here:
ASCII alphanumerics and underscore; non-ASCII code points are treated as
word characters (exact for the accented letters that occur in this
repository's data). -/
def pyIsWordChar (c : Char) : Bool :=
  c.isAlphanum || c == '_' || decide (128 ≤ c.toNat)

/-- `\b` between `prev` and `next` (`none` = outside the text, non-word). -/
def atBoundary (prev next : Option Char) : Bool :=
  (match prev with | none => false | some c => pyIsWordChar c) !=
  (match next with | none => false | some c => pyIsWordChar c)

/-- Literal matching of `pat` as a prefix of `cs`, case-insensitively when
`ci` (Python `re.IGNORECASE` via lowercasing, exact on ASCII); returns the
remaining suffix. -/
def matchLit (ci : Bool) : List Char → List Char → Option (List Char)
  | [], cs => some cs
  | _ :: _, [] => none
  | p :: ps, c :: cs =>
    if (if ci then p.toLower == c.toLower else p == c) then matchLit ci ps cs
    else none

/-- One backtracking alternative of the pattern tail `s?(\]\])?s?(?![\w])`:
consume the optional tokens selected by the flags, then check the negative
lookahead `(?![\w])`. -/
def suffixCombo (ci : Bool) (cs : List Char) (b1 b2 b3 : Bool) : Option (List Char) := do
  let r1 ← if b1 then matchLit ci ['s'] cs else some cs
  let r2 ← if b2 then matchLit ci [']', ']'] r1 else some r1
  let r3 ← if b3 then matchLit ci ['s'] r2 else some r2
  match r3.head? with
  | some c => if pyIsWordChar c then none else some r3
  | none => some r3

/-- The pattern tail with greedy backtracking: alternatives tried with
each optional element preferring to consume, in the engine's order. -/
def suffixMatch (ci : Bool) (cs : List Char) : Option (List Char) :=
  suffixCombo ci cs true true true <|> suffixCombo ci cs true true false <|>
  suffixCombo ci cs true false true <|> suffixCombo ci cs true false false <|>
  suffixCombo ci cs false true true <|> suffixCombo ci cs false true false <|>
  suffixCombo ci cs false false true <|> suffixCombo ci cs false false false

/-- Match of the whole pattern `(\b|\[\[)` + literal + tail at the current
position; `prev` is the character before it.  Returns the match length. -/
def matchPat (ci : Bool) (T : List Char) (prev : Option Char) (cs : List Char) :
    Option Nat :=
  let alt1 : Option (List Char) :=
    if atBoundary prev cs.head? then
      match matchLit ci T cs with
      | some r => suffixMatch ci r
      | none => none
    else none
  let alt2 : Option (List Char) :=
    match cs with
    | '[' :: '[' :: rest =>
      match matchLit ci T rest with
      | some r => suffixMatch ci r
      | none => none
    | _ => none
  (alt1 <|> alt2).map (fun r => cs.length - r.length)

/-- Substring test (for the `"[[" in original_text` guards). -/
def hasSubstr (pat : List Char) : List Char → Bool
  | [] => startsWithChars pat []
  | c :: rest => startsWithChars pat (c :: rest) || hasSubstr pat rest

/--
The `replacement` closure of `linkify_text`: given the full sorted
classic-title list (`sorted_titles`), the current pass's `title` argument
and the matched text, return the replacement text and whether
`nb_new_links` was incremented.
-/
def replacement (sortedTitles : List (List Char)) (title : List Char)
    (matched : List Char) : List Char × Bool :=
  if hasSubstr ['[', '['] matched || hasSubstr [']', ']'] matched then
    (matched, false)
  else if (match matched.getLast? with
            | some c => c.toLower == 's'
            | none => false) &&
          sortedTitles.contains matched.dropLast then
    ('[' :: '[' :: matched.dropLast ++ [']', ']', 's'], true)
  else if !title.isEmpty && title != matched then
    ('[' :: '[' :: title ++ '|' :: matched ++ [']', ']'], true)
  else
    ('[' :: '[' :: matched ++ [']', ']'], true)

/-- Decrement an optional replacement budget (`re.sub`'s `count`). -/
def decCount : Option Nat → Option Nat
  | none => none
  | some n => some (n - 1)

/--
One `re.sub` call: scan the text left to right, replacing each
non-overlapping match (matching always against the original text of this
call), stopping after `maxCount` matches when a count is given.
Returns the rewritten text and the number of `nb_new_links` increments.
-/
def subScan (sortedTitles : List (List Char)) (T title : List Char) (ci : Bool) :
    Nat → Option Char → Option Nat → List Char → List Char × Nat
  | 0, _, _, cs => (cs, 0)
  | fuel + 1, prev, maxCount, cs =>
    if maxCount == some 0 then (cs, 0)
    else
      match matchPat ci T prev cs with
      | some len =>
        if len == 0 then
          -- zero-width match: emit the replacement, then copy one character
          let (r, inc) := replacement sortedTitles title []
          match cs with
          | [] => (r, if inc then 1 else 0)
          | c :: rest =>
            let (out, n) := subScan sortedTitles T title ci fuel (some c)
              (decCount maxCount) rest
            (r ++ c :: out, (if inc then 1 else 0) + n)
        else
          let m := cs.take len
          let rest := cs.drop len
          let (r, inc) := replacement sortedTitles title m
          let prev' : Option Char :=
            match m.getLast? with
            | some c => some c
            | none => prev
          let (out, n) := subScan sortedTitles T title ci fuel prev'
            (decCount maxCount) rest
          (r ++ out, (if inc then 1 else 0) + n)
      | none =>
        match cs with
        | [] => ([], 0)
        | c :: rest =>
          let (out, n) := subScan sortedTitles T title ci fuel (some c) maxCount rest
          (c :: out, n)

/-- Fold the per-title `re.sub` passes over the running text, accumulating
the new-link count.  Each pass matches against the previous pass's output. -/
def runPasses (sortedTitles : List (List Char)) (ci : Bool) (maxCount : Option Nat) :
    List (List Char × List Char) → List Char → List Char × Nat
  | [], cs => (cs, 0)
  | (T, title) :: rest, cs =>
    let (out, n) := subScan sortedTitles T title ci (cs.length + 1) none maxCount cs
    let (out2, m) := runPasses sortedTitles ci maxCount rest out
    (out2, n + m)

/-- Python `sorted(classic_titles, key=len, reverse=True)`: stable
insertion sort by length, descending. -/
def insertDesc (x : String) : List String → List String
  | [] => [x]
  | y :: ys => if y.length < x.length then x :: y :: ys else y :: insertDesc x ys

def sortByLenDesc (titles : List String) : List String :=
  titles.foldl (fun acc t => insertDesc t acc) []

/-- First-occurrence deduplication, modelling the `dict` comprehension
`{title: pattern for title in sorted_titles}` whose keys are iterated. -/
def dedupKeepFirst (seen : List (List Char)) : List (List Char) → List (List Char)
  | [] => []
  | x :: xs =>
    if seen.contains x then dedupKeepFirst seen xs
    else x :: dedupKeepFirst (x :: seen) xs

/-- The title-set actually used by `linkify_text`: `if file_title:` —
remove the current file's title by exact match (Python's truthiness test
means a `None` or empty current title skips the filtering). -/
def effectiveTitles (note_titles : List String) : Option String → List String
  | some ft => if ft ≠ "" then note_titles.filter (fun t => t ≠ ft) else note_titles
  | none => note_titles

/--
`linkify_text` from `src/linkify.py`.

Returns `none` when `separate_acronyms_and_classic_titles` raises
(see C5).  Otherwise, mirroring the code's early return, the result is
`Sum.inl rewrittenText` when the acronym map is empty (the bare string the
code returns at `if len(acronyms) == 0`), and
`Sum.inr (rewrittenText, nb_new_links)` when the acronym passes run.
-/
def linkify_text (text : String) (note_titles : List String)
    (file_title : Option String := none) : Option (String ⊕ (String × Nat)) :=
  let titles := effectiveTitles note_titles file_title
  match separate_acronyms_and_classic_titles titles with
  | none => none
  | some (acrs, classics) =>
    let sortedT := sortByLenDesc classics
    let sortedL : List (List Char) := sortedT.map (fun s => s.data)
    let passTitles := dedupKeepFirst [] sortedL
    let (t1, n1) := runPasses sortedL true none
      (passTitles.map (fun t => (t, t))) text.data
    if acrs.isEmpty then some (.inl (String.mk t1))
    else
      let (t2, n2) := runPasses sortedL false (some 2)
        (acrs.map (fun p => (p.1, p.2.data))) t1
      some (.inr (String.mk t2, n1 + n2))

/-! ### Lemmas about the normalization utility -/

theorem lowerPairs_snd_props :
    ∀ p ∈ lowerPairs, p.2.toNat < 128 ∧ p.2 ≠ ' ' ∧ p.2 ≠ '-' ∧
      p.2 ∉ upperLetters ∧ asciiLower p.2 = p.2 := by decide

theorem lowerPairs_fst_mem : ∀ p ∈ lowerPairs, p.1 ∈ upperLetters := by decide

theorem upperLetters_covered :
    ∀ u ∈ upperLetters, lowerPairs.any (fun p => p.1 == u) = true := by decide

theorem asciiLower_eq_of_not_upper {c : Char} (h : c ∉ upperLetters) :
    asciiLower c = c := by
  unfold asciiLower
  cases hf : lowerPairs.find? (fun p => p.1 == c) with
  | none => rfl
  | some p =>
    exfalso
    have hp : p ∈ lowerPairs := List.mem_of_find?_eq_some hf
    have hc : p.1 = c := by simpa using List.find?_some hf
    exact h (hc ▸ lowerPairs_fst_mem p hp)

theorem asciiLower_not_upper (c : Char) : asciiLower c ∉ upperLetters := by
  unfold asciiLower
  cases hf : lowerPairs.find? (fun p => p.1 == c) with
  | none =>
    simp only [Option.map_none', Option.getD_none]
    intro hmem
    have := upperLetters_covered c hmem
    rw [List.any_eq_true] at this
    obtain ⟨p, hp, hpc⟩ := this
    have := List.find?_eq_none.mp hf p hp
    exact this (by simpa using hpc)
  | some p =>
    simp only [Option.map_some', Option.getD_some]
    exact (lowerPairs_snd_props p (List.mem_of_find?_eq_some hf)).2.2.2.1

theorem asciiLower_lt128 {c : Char} (h : c.toNat < 128) :
    (asciiLower c).toNat < 128 := by
  unfold asciiLower
  cases hf : lowerPairs.find? (fun p => p.1 == c) with
  | none => simpa using h
  | some p =>
    simp only [Option.map_some', Option.getD_some]
    exact (lowerPairs_snd_props p (List.mem_of_find?_eq_some hf)).1

theorem sepToUnderscore_props (c : Char) :
    sepToUnderscore c ≠ ' ' ∧ sepToUnderscore c ≠ '-' := by
  unfold sepToUnderscore
  by_cases h : (c == ' ' || c == '-') = true
  · rw [if_pos h]; exact ⟨by decide, by decide⟩
  · rw [if_neg h]
    simp only [Bool.or_eq_true, beq_iff_eq, not_or] at h
    exact ⟨h.1, h.2⟩

theorem sepToUnderscore_lt128 {c : Char} (h : c.toNat < 128) :
    (sepToUnderscore c).toNat < 128 := by
  unfold sepToUnderscore
  by_cases hc : (c == ' ' || c == '-') = true
  · rw [if_pos hc]; decide
  · rw [if_neg hc]; exact h

theorem sepToUnderscore_not_upper {c : Char} (h : c ∉ upperLetters) :
    sepToUnderscore c ∉ upperLetters := by
  unfold sepToUnderscore
  by_cases hc : (c == ' ' || c == '-') = true
  · rw [if_pos hc]; decide
  · rw [if_neg hc]; exact h

theorem sepToUnderscore_eq_of_not_sep {c : Char} (h1 : c ≠ ' ') (h2 : c ≠ '-') :
    sepToUnderscore c = c := by
  unfold sepToUnderscore
  rw [if_neg]
  simp [h1, h2]

theorem map_id_of_mem {α : Type} {f : α → α} {l : List α}
    (h : ∀ a ∈ l, f a = a) : l.map f = l := by
  induction l with
  | nil => rfl
  | cons a t ih =>
    simp only [List.map_cons]
    rw [h a (List.mem_cons_self a t), ih (fun b hb => h b (List.mem_cons_of_mem a hb))]

theorem flatMap_nfkd_ascii {l : List Char} (h : ∀ c ∈ l, c.toNat < 128) :
    l.flatMap nfkdChar = l := by
  induction l with
  | nil => rfl
  | cons a t ih =>
    rw [List.flatMap_cons, ih (fun b hb => h b (List.mem_cons_of_mem a hb))]
    have ha : nfkdChar a = [a] := by
      unfold nfkdChar
      rw [if_pos (h a (List.mem_cons_self a t))]
    rw [ha]
    rfl

/-- Membership characterization for `simplified_string`'s output characters. -/
theorem simplified_string_mem {s : String} {c : Char}
    (hc : c ∈ (simplified_string s).data) :
    c.toNat < 128 ∧ c ≠ ' ' ∧ c ≠ '-' ∧ c ∉ upperLetters := by
  have hc' : c ∈ ((remove_accents s).map asciiLower).map sepToUnderscore := hc
  obtain ⟨b, hb, hbc⟩ := List.mem_map.mp hc'
  obtain ⟨a, ha, hab⟩ := List.mem_map.mp hb
  have ha128 : a.toNat < 128 := by
    have := (List.mem_filter.mp ha).2
    simpa using this
  have hb128 : b.toNat < 128 := hab ▸ asciiLower_lt128 ha128
  have hbup : b ∉ upperLetters := hab ▸ asciiLower_not_upper a
  refine ⟨hbc ▸ sepToUnderscore_lt128 hb128, hbc ▸ (sepToUnderscore_props b).1,
    hbc ▸ (sepToUnderscore_props b).2, hbc ▸ sepToUnderscore_not_upper hbup⟩

/-- `simplified_string` is idempotent. -/
theorem simplified_string_idem (s : String) :
    simplified_string (simplified_string s) = simplified_string s := by
  have hmem := fun c hc => simplified_string_mem (s := s) (c := c) hc
  unfold simplified_string remove_accents
  have h1 : (simplified_string s).data.flatMap nfkdChar = (simplified_string s).data :=
    flatMap_nfkd_ascii (fun c hc => (hmem c hc).1)
  rw [show (String.mk ((((s.data.flatMap nfkdChar).filter
        (fun c => decide (c.toNat < 128))).map asciiLower).map sepToUnderscore)) =
      simplified_string s from rfl, h1]
  have h2 : (simplified_string s).data.filter (fun c => decide (c.toNat < 128)) =
      (simplified_string s).data :=
    List.filter_eq_self.mpr (fun c hc => by simpa using (hmem c hc).1)
  rw [h2]
  have h3 : (simplified_string s).data.map asciiLower = (simplified_string s).data :=
    map_id_of_mem (fun c hc => asciiLower_eq_of_not_upper (hmem c hc).2.2.2)
  rw [h3]
  have h4 : (simplified_string s).data.map sepToUnderscore = (simplified_string s).data :=
    map_id_of_mem (fun c hc => sepToUnderscore_eq_of_not_sep (hmem c hc).2.1 (hmem c hc).2.2.1)
  rw [h4]

/--
C10: for every input string `s`, `simplified_string s` contains only ASCII
characters (code points below 128) and contains no space, no hyphen, and no
uppercase letter; and `simplified_string` is idempotent.
-/
theorem claim_C10_simplified_string_invariants (s : String) :
    (∀ c ∈ (simplified_string s).data,
        c.toNat < 128 ∧ c ≠ ' ' ∧ c ≠ '-' ∧ c ∉ upperLetters) ∧
    simplified_string (simplified_string s) = simplified_string s :=
  ⟨fun _ hc => simplified_string_mem hc, simplified_string_idem s⟩

/-- Witness for C10 at the concrete input `"É a-B"`. -/
theorem claim_C10_simplified_string_invariants_witness :
    (('a' : Char).toNat < 128 ∧ ('a' : Char) ≠ ' ' ∧ ('a' : Char) ≠ '-' ∧
      ('a' : Char) ∉ upperLetters) ∧
    simplified_string (simplified_string "É a-B") = simplified_string "É a-B" :=
  ⟨(claim_C10_simplified_string_invariants "É a-B").1 'a' (by decide),
   (claim_C10_simplified_string_invariants "É a-B").2⟩

/--
C5: FALSE of the code — `separate_acronyms_and_classic_titles` is not total.
A title with consecutive hyphen separators (for example `"a--b"`) normalizes
to a word list containing the empty word, and Python's `word[0]` then raises
`IndexError` (modelled by `none`); the titles are not merely excluded from
the acronym map.  A well-formed title list succeeds for comparison.
-/
theorem claim_C5_acronym_derivation_not_total :
    separate_acronyms_and_classic_titles ["a--b"] = none ∧
    separate_acronyms_and_classic_titles ["Machine Learning"] =
      some ([(['M', 'L'], "Machine Learning")], ["Machine Learning"]) :=
  ⟨rfl, rfl⟩

/-! ### Lemmas about the segmenter -/

theorem findFirst_append :
    ∀ (fuel : Nat) (prev : Option Char) (cs g m r : List Char),
      findFirst fuel prev cs = some (g, m, r) → g ++ (m ++ r) = cs := by
  intro fuel
  induction fuel with
  | zero => intro prev cs g m r h; simp [findFirst] at h
  | succ n ih =>
    intro prev cs g m r h
    simp only [findFirst] at h
    cases h1 : segMatchAt prev cs with
    | some len =>
      rw [h1] at h
      simp only [Option.some.injEq, Prod.mk.injEq] at h
      obtain ⟨hg, hm, hr⟩ := h
      rw [← hg, ← hm, ← hr]
      simp [List.take_append_drop]
    | none =>
      rw [h1] at h
      cases cs with
      | nil => simp at h
      | cons c rest =>
        simp only [Option.map_eq_some'] at h
        obtain ⟨⟨g', m', r'⟩, hff, heq⟩ := h
        have hres := ih (some c) rest g' m' r' hff
        simp only [Prod.mk.injEq] at heq
        obtain ⟨hg, hm, hr⟩ := heq
        rw [← hg, ← hm, ← hr]
        simpa using hres

theorem segPieces_join :
    ∀ (fuel : Nat) (prev : Option Char) (cs : List Char),
      (segPieces fuel prev cs).flatten = cs := by
  intro fuel
  induction fuel with
  | zero => intro prev cs; simp [segPieces]
  | succ n ih =>
    intro prev cs
    simp only [segPieces]
    cases h1 : findFirst (cs.length + 1) prev cs with
    | none => simp
    | some gmr =>
      obtain ⟨g, m, r⟩ := gmr
      have hres := findFirst_append (cs.length + 1) prev cs g m r h1
      simp only [List.flatten_cons]
      rw [ih _ r]
      exact hres

/-- Folding `String` concatenation over pieces equals concatenating the
underlying character lists. -/
theorem string_foldl_append :
    ∀ (l : List (List Char)) (acc : String),
      (l.map String.mk).foldl (fun r s => r ++ s) acc =
        String.mk (acc.data ++ l.flatten) := by
  intro l
  induction l with
  | nil => intro acc; simp
  | cons p t ih =>
    intro acc
    simp only [List.map_cons, List.foldl_cons, List.flatten_cons]
    rw [ih (acc ++ String.mk p)]
    have hd : (acc ++ String.mk p).data = acc.data ++ p := rfl
    rw [hd, List.append_assoc]

/--
C3: reassembly invariant of the segmenter — for every input text,
concatenating in order the span strings returned by
`split_text_for_linkification` yields exactly the original text.
-/
theorem claim_C3_segmenter_reassembly (text : String) :
    String.join ((split_text_for_linkification text).map Prod.fst) = text := by
  unfold split_text_for_linkification
  rw [List.map_map]
  have hmap : (Prod.fst ∘ fun p => (String.mk p,
      !(startsWithChars "```".data p || startsWithChars "$".data p ||
        startsWithChars "|".data p))) = fun p => String.mk p := rfl
  rw [hmap]
  unfold String.join
  rw [show ((segPieces (text.data.length + 1) none text.data).map fun p => String.mk p) =
      ((segPieces (text.data.length + 1) none text.data).map String.mk) from rfl]
  rw [string_foldl_append]
  rw [segPieces_join]
  rfl

/--
C9: FALSE of the code — the table-row alternative `^\|.*\|$` runs under
`re.DOTALL` with a greedy `.*`, so two table lines separated by ordinary
text merge, together with the intervening text, into one protected span
(here `"|a|\nx\n|b|"` becomes a single protected span swallowing `"x"`).
A lone table row followed by text is segmented as the claim describes,
for comparison.
-/
theorem claim_C9_table_rows_merge :
    split_text_for_linkification "|a|\nx\n|b|" =
      [("", true), ("|a|\nx\n|b|", false), ("", true)] ∧
    split_text_for_linkification "|a|\nx" =
      [("", true), ("|a|", false), ("\nx", true)] :=
  ⟨rfl, rfl⟩

/-! ### Lemmas about the linker engine -/

theorem mem_insertDesc {z x : String} :
    ∀ {l : List String}, z ∈ insertDesc x l → z = x ∨ z ∈ l := by
  intro l
  induction l with
  | nil => intro h; simpa [insertDesc] using h
  | cons y ys ih =>
    intro h
    unfold insertDesc at h
    by_cases hc : y.length < x.length
    · rw [if_pos hc] at h
      simp only [List.mem_cons] at h
      rcases h with h | h | h
      · exact Or.inl h
      · exact Or.inr (by simp [h])
      · exact Or.inr (by simp [h])
    · rw [if_neg hc] at h
      simp only [List.mem_cons] at h
      rcases h with h | h
      · exact Or.inr (by simp [h])
      · rcases ih h with h | h
        · exact Or.inl h
        · exact Or.inr (by simp [h])

theorem insertDesc_sorted {x : String} :
    ∀ {l : List String}, l.Pairwise (fun a b => b.length ≤ a.length) →
      (insertDesc x l).Pairwise (fun a b => b.length ≤ a.length) := by
  intro l
  induction l with
  | nil => intro _; simp [insertDesc]
  | cons y ys ih =>
    intro h
    rw [List.pairwise_cons] at h
    obtain ⟨hy, hys⟩ := h
    unfold insertDesc
    by_cases hc : y.length < x.length
    · rw [if_pos hc]
      rw [List.pairwise_cons]
      constructor
      · intro z hz
        simp only [List.mem_cons] at hz
        rcases hz with hz | hz
        · rw [hz]; exact Nat.le_of_lt hc
        · exact Nat.le_trans (hy z hz) (Nat.le_of_lt hc)
      · rw [List.pairwise_cons]
        exact ⟨hy, hys⟩
    · rw [if_neg hc]
      rw [List.pairwise_cons]
      constructor
      · intro z hz
        rcases mem_insertDesc hz with hz | hz
        · exact hz ▸ Nat.le_of_not_lt hc
        · exact hy z hz
      · exact ih hys

theorem sortByLenDesc_sorted (titles : List String) :
    (sortByLenDesc titles).Pairwise (fun a b => b.length ≤ a.length) := by
  unfold sortByLenDesc
  have main : ∀ (ts : List String) (acc : List String),
      acc.Pairwise (fun a b => b.length ≤ a.length) →
      (ts.foldl (fun acc t => insertDesc t acc) acc).Pairwise
        (fun a b => b.length ≤ a.length) := by
    intro ts
    induction ts with
    | nil => intro acc h; simpa using h
    | cons t ts ih =>
      intro acc h
      exact ih (insertDesc t acc) (insertDesc_sorted h)
  exact main titles [] List.Pairwise.nil

/-! ### Claims about the linker engine -/

/--
C1, counterexample: the longest-match precedence rule does NOT guarantee
that a shorter nested title never fragments the longer title's match.
With the claim's own titles `["Learning", "Machine Learning"]` and the
lowercase text `"machine learning is fun"`, the first pass emits the
`|surface` form `"[[Machine Learning|machine learning]]"`, which leaves
the canonical title bracket-free before the `"|"`; the later `"Learning"`
pass then matches that bracket-free `"Learning"` (right lookahead at `"|"`
succeeds, the guard sees no brackets) and wraps it, producing a partially
wrapped form in a single run.
-/
theorem claim_C1_longest_match_counterexample :
    linkify_text "machine learning is fun" ["Learning", "Machine Learning"] none =
      some (.inr ("[[Machine [[Learning]]|machine learning]] is fun", 2)) ∧
    (some (.inr ("[[Machine [[Learning]]|machine learning]] is fun", 2)) :
        Option (String ⊕ (String × Nat))) ≠
      some (.inr ("[[Machine Learning|machine learning]] is fun", 1)) :=
  ⟨rfl, by decide⟩

/--
C1, amended: `linkify_text` tries classic titles sorted by length in
descending order (first conjunct: the sorted list is pairwise
length-descending for every title list), and when the matched surface is
exactly the longer title the shorter nested title does not fragment the
reference: for titles `["Learning", "Machine Learning"]` and text
`"Machine Learning is fun"`, the result text is
`"[[Machine Learning]] is fun"` with one new reference (the acronym map
`{"ML": "Machine Learning"}` is non-empty, so the pair is returned) —
the shorter title's later matches all contain `"]]"` and are guarded.
When the surface differs from the canonical title, the emitted
`[[Title|surface]]` form can still be fragmented by a shorter nested
title on the same run (see the counterexample).
-/
theorem claim_C1_longest_match_precedence :
    (∀ titles : List String,
        (sortByLenDesc titles).Pairwise (fun a b => b.length ≤ a.length)) ∧
    linkify_text "Machine Learning is fun" ["Learning", "Machine Learning"] none =
      some (.inr ("[[Machine Learning]] is fun", 1)) :=
  ⟨sortByLenDesc_sorted, rfl⟩

/--
C2, counterexample: `linkify_text` is not idempotent.  With titles
`["Machine Learning", "Learning"]` and text `"ML is fun"`, the first run's
acronym pass produces `"[[Machine Learning|ML]] is fun"`; a second run's
"Learning" pass then matches the bracket-free span `"Learning"` inside the
emitted display text and wraps it again, giving a different text.
-/
theorem claim_C2_idempotence_counterexample :
    linkify_text "ML is fun" ["Machine Learning", "Learning"] none =
      some (.inr ("[[Machine Learning|ML]] is fun", 1)) ∧
    linkify_text "[[Machine Learning|ML]] is fun"
        ["Machine Learning", "Learning"] none =
      some (.inr ("[[Machine [[Learning]]|ML]] is fun", 1)) ∧
    ("[[Machine [[Learning]]|ML]] is fun" : String) ≠
      "[[Machine Learning|ML]] is fun" :=
  ⟨rfl, rfl, by decide⟩

/--
C2, amended: any match that already contains `"[["` or `"]]"` is left
untouched by `replacement` without incrementing the counter (first
conjunct), and a text already containing
`"[[Supervised learning|supervised learning]]"` is not re-wrapped even
though `"Supervised learning"` is a known title (second conjunct); but
full idempotence fails (see the counterexample) because a later pass of
the first run can emit bracket material that an earlier pass only
encounters on the second run.
-/
theorem claim_C2_existing_link_guard :
    (∀ (st : List (List Char)) (title m : List Char),
        (hasSubstr ['[', '['] m || hasSubstr [']', ']'] m) = true →
        replacement st title m = (m, false)) ∧
    linkify_text "[[Supervised learning|supervised learning]] rocks"
        ["Supervised learning"] none =
      some (.inr ("[[Supervised learning|supervised learning]] rocks", 0)) := by
  constructor
  · intro st title m h
    unfold replacement
    rw [if_pos h]
  · rfl

/-- Witness for the guard of C2 at a concrete bracketed match. -/
theorem claim_C2_existing_link_guard_witness :
    replacement [] [] "[[x]]".data = ("[[x]]".data, false) :=
  claim_C2_existing_link_guard.1 [] [] "[[x]]".data (by decide)

/--
C4: FALSE of the code — with an empty title list (for any text and any
current-file title) the acronym map is empty, so `linkify_text` takes the
`if len(acronyms) == 0: return linked_text` early return and yields the
bare string (`Sum.inl text`), not the pair `(text, 0)` promised by its
`tuple[str, int]` annotation and unpacked by its caller.
-/
theorem effectiveTitles_nil (ft : Option String) : effectiveTitles [] ft = [] := by
  cases ft with
  | none => rfl
  | some s =>
    show (if s ≠ "" then List.filter (fun t => decide (t ≠ s)) [] else []) = []
    split <;> rfl

theorem claim_C4_empty_titles_bare_string (text : String) (ft : Option String) :
    linkify_text text [] ft = some (.inl text) := by
  unfold linkify_text
  rw [effectiveTitles_nil]
  rfl

/--
C6, counterexample: with title `"Model"` and text `"models are useful"`,
the matched surface `"models"` minus its trailing `"s"` is `"model"`,
which does not *exactly* equal the known title `"Model"` (the membership
test is case-sensitive), so the plural branch is skipped and the code
emits `"[[Model|models]] are useful"` — not `"[[Model]]s are useful"` as
the claim's example asserts.
-/
theorem claim_C6_pluralization_counterexample :
    linkify_text "models are useful" ["Model"] none =
      some (.inl "[[Model|models]] are useful") ∧
    (some (.inl "[[Model|models]] are useful") :
        Option (String ⊕ (String × Nat))) ≠
      some (.inl "[[Model]]s are useful") :=
  ⟨rfl, by decide⟩

/--
C6, amended: whenever a match (not already bracketed) ends in a lowercase
or uppercase `"s"` and the match without that trailing `"s"` exactly
(case-sensitively) equals a known classic title, the emission is
`[[Title]]s` with the plural `"s"` outside the marker (first conjunct);
in particular with title `"Model"` and text `"Models are useful"` the
result text is `"[[Model]]s are useful"` (second conjunct).
-/
theorem claim_C6_pluralization_amended :
    (∀ (st : List (List Char)) (title m : List Char),
        (hasSubstr ['[', '['] m || hasSubstr [']', ']'] m) = false →
        (match m.getLast? with
          | some c => c.toLower == 's'
          | none => false) = true →
        st.contains m.dropLast = true →
        replacement st title m = ('[' :: '[' :: m.dropLast ++ [']', ']', 's'], true)) ∧
    linkify_text "Models are useful" ["Model"] none =
      some (.inl "[[Model]]s are useful") := by
  constructor
  · intro st title m h1 h2 h3
    unfold replacement
    rw [if_neg (by simp [h1]), if_pos (by rw [h2, h3]; rfl)]
  · rfl

/-- Witness for the plural branch of C6 at the concrete match `"Models"`. -/
theorem claim_C6_pluralization_amended_witness :
    replacement ["Model".data] "Model".data "Models".data =
      ("[[Model]]s".data, true) :=
  claim_C6_pluralization_amended.1 ["Model".data] "Model".data "Models".data
    (by decide) (by decide) (by decide)

/--
C7: the acronym pass exists and the claim's concrete example holds
(first conjunct), but the pass is NOT case-insensitive and does NOT
replace every occurrence: the code passes `re.IGNORECASE` as `re.sub`'s
positional `count` argument, so each acronym is matched case-sensitively
and replaced at most `int(re.IGNORECASE) = 2` times — `"ml is powerful"`
is left unchanged, and only the first two of three `"ML"` occurrences are
replaced.
-/
theorem claim_C7_acronym_pass_behavior :
    linkify_text "ML is powerful" ["Machine Learning"] none =
      some (.inr ("[[Machine Learning|ML]] is powerful", 1)) ∧
    linkify_text "ml is powerful" ["Machine Learning"] none =
      some (.inr ("ml is powerful", 0)) ∧
    linkify_text "ML ML ML" ["Machine Learning"] none =
      some (.inr ("[[Machine Learning|ML]] [[Machine Learning|ML]] ML", 2)) :=
  ⟨rfl, rfl, rfl⟩

/--
C8, counterexample: removing the current-file title by exact match does
not prevent the same word from being wrapped by a *different* remaining
title.  With titles `["Regression", "regression"]` and current-file title
`"Regression"`, only the exact string `"Regression"` is removed; the
case-variant title `"regression"` still matches the word `"Regression"`
case-insensitively and wraps it.
-/
theorem claim_C8_self_exclusion_counterexample :
    linkify_text "Regression" ["Regression", "regression"] (some "Regression") =
      some (.inl "[[regression|Regression]]") ∧
    (some (.inl "[[regression|Regression]]") :
        Option (String ⊕ (String × Nat))) ≠ some (.inl "Regression") :=
  ⟨rfl, by decide⟩

/--
C8, amended: the current file's title is removed from the title set by
exact match before matching begins (first conjunct: no element equal to
the current title survives the filter), so when every title of the set
equals the (non-empty) current-file title the text is returned unchanged
(second conjunct) — but a word equal to the current title can still be
wrapped when a different remaining title matches it (see the
counterexample).
-/
theorem claim_C8_self_exclusion_amended :
    (∀ (ts : List String) (ft : String),
        ∀ t ∈ ts.filter (fun t => t ≠ ft), t ≠ ft) ∧
    (∀ (text : String) (ts : List String) (ft : String), ft ≠ "" →
        (∀ t ∈ ts, t = ft) →
        linkify_text text ts (some ft) = some (.inl text)) := by
  constructor
  · intro ts ft t ht
    have := (List.mem_filter.mp ht).2
    simpa using this
  · intro text ts ft hft hall
    have heff : effectiveTitles ts (some ft) = [] := by
      show (if ft ≠ "" then List.filter (fun t => decide (t ≠ ft)) ts else ts) = []
      rw [if_pos hft, List.filter_eq_nil_iff]
      intro t ht
      simp [hall t ht]
    unfold linkify_text
    rw [heff]
    rfl

/-- Witness for C8's amended statement at concrete inputs. -/
theorem claim_C8_self_exclusion_amended_witness :
    ("a" : String) ≠ "b" ∧
    linkify_text "Regression is fun" ["Regression"] (some "Regression") =
      some (.inl "Regression is fun") :=
  ⟨claim_C8_self_exclusion_amended.1 ["a", "b"] "b" "a" (by decide),
   claim_C8_self_exclusion_amended.2 "Regression is fun" ["Regression"]
     "Regression" (by decide) (by decide)⟩

end Linkify
